import Mathlib

/-!
Verification of the ColorCast color-transfer engine (src/colorcast.py).

The engine works on numpy arrays of float samples.  We embed it in two layers:

* `NpArr` — a raw numpy array: a shape (list of dimension sizes) together with
  flat data in C order.  Elementwise binary operations follow numpy's
  right-aligned broadcasting rules.  This layer carries `blend_images`
  (src/colorcast.py lines 153-156, which performs no shape check of its own)
  and `ensure_rgb` (lines 35-49).

* `Img` — a canonical 3-channel image as produced by `ensure_rgb` and consumed
  by every transfer algorithm: three equal-length flat channel lists.  All
  per-channel algorithms (histogram matching, mean/std transfer, LUT curves,
  selective regional transfer, intensity blending) act channel-wise or
  pixel-wise and never depend on the 2-D arrangement of the pixels, so the
  flattened view is faithful.

Samples are rationals (the float programs' operations here are +, -, *, /,
comparisons and clipping, which ℚ models exactly).  Three library calls are
genuinely irrational-valued: `np.std` (a square root), the s-curve's `sin`,
and the contrast curve's `v ** 0.8`.  The ℚ pipeline abstracts those three as
a `NumOps` parameter and every theorem below quantifies over all `NumOps`, so
each theorem in particular holds for the true numeric functions.  For the
statistical-transfer contract (claim about `color_transfer_meanstd`'s formula)
we additionally give a real-valued model with the genuine `Real.sqrt`.
-/

/-- `np.clip(x, lo, hi)` on a scalar: lower bound applied first, then upper. -/
def clampQ (x lo hi : ℚ) : ℚ := min (max x lo) hi

/-! ## Raw numpy arrays and broadcasting -/

/-- A numpy array: a shape and flat data in C (row-major) order. -/
structure NpArr where
  shape : List Nat
  data : List ℚ
deriving DecidableEq

/-- Flat C-order position of a multi-index `ix` in an array of shape `sh`. -/
def offset : List Nat → List Nat → Nat
  | _ :: ds, i :: is => i * ds.prod + offset ds is
  | _, _ => 0

/-- Sample of `a` at multi-index `ix` (0 outside the data). -/
def getAt (a : NpArr) (ix : List Nat) : ℚ := a.data.getD (offset a.shape ix) 0

/-- All multi-indices of a shape, in C order. -/
def allIdx : List Nat → List (List Nat)
  | [] => [[]]
  | d :: ds => ((List.range d).map fun i => (allIdx ds).map (i :: ·)).flatten

/-- Numpy broadcast of two shapes, both given reversed (aligned from the
trailing dimension): dimensions are compatible when equal or when one is 1. -/
def bcRev : List Nat → List Nat → Option (List Nat)
  | [], ys => some ys
  | x :: xs, [] => some (x :: xs)
  | x :: xs, y :: ys =>
    match bcRev xs ys with
    | none => none
    | some rest =>
      if x = y then some (x :: rest)
      else if x = 1 then some (y :: rest)
      else if y = 1 then some (x :: rest)
      else none

/-- Numpy broadcast of two shapes; `none` when they are incompatible. -/
def broadcastShapes (s t : List Nat) : Option (List Nat) :=
  (bcRev s.reverse t.reverse).map List.reverse

/-- Index into an operand of shape `sh` corresponding to result index `ix`:
right-align, and read position 0 along every broadcast (size-1) dimension. -/
def opIdx (sh ix : List Nat) : List Nat :=
  List.zipWith (fun d i => if d = 1 then 0 else i) sh (ix.drop (ix.length - sh.length))

/-- Elementwise binary operation with numpy broadcasting; numpy raises a
`ValueError` when the shapes are not broadcastable. -/
def npBinop (f : ℚ → ℚ → ℚ) (a b : NpArr) : Except String NpArr :=
  match broadcastShapes a.shape b.shape with
  | none => Except.error "operands could not be broadcast together"
  | some sh =>
    Except.ok ⟨sh, (allIdx sh).map fun ix => f (getAt a (opIdx a.shape ix)) (getAt b (opIdx b.shape ix))⟩

/-- Array-times-scalar (`arr * c`): shape preserved, every sample scaled. -/
def npScale (c : ℚ) (a : NpArr) : NpArr := ⟨a.shape, a.data.map fun x => x * c⟩

/-- `blend_images` (src/colorcast.py lines 153-156): clamp the intensity to
[0,1], then `original * (1 - intensity) + styled * intensity`.  The function
performs no shape check of its own; the `+` is numpy's broadcasting add. -/
def blend_images (original styled : NpArr) (intensity : ℚ) : Except String NpArr :=
  npBinop (· + ·) (npScale (1 - clampQ intensity 0 1) original) (npScale (clampQ intensity 0 1) styled)

/-! ## ensure_rgb (src/colorcast.py lines 35-49) -/

/-- Keep the first 3 of every 4 consecutive samples: flat-data view of
`img[:, :, :3]` on an H×W×4 array. -/
def take3of4 : List ℚ → List ℚ
  | a :: b :: c :: _ :: rest => a :: b :: c :: take3of4 rest
  | _ => []

/-- `ensure_rgb` (src/colorcast.py lines 35-49): canonicalize a decoded image
to rank-3, 3-channel form; rank 2 and single-channel rank 3 replicate the one
channel, 4 channels drop alpha, anything else raises a `ValueError` naming the
actual channel count or rank. -/
def ensure_rgb (img : NpArr) : Except String NpArr :=
  match img.shape with
  | [h, w] => Except.ok ⟨[h, w, 3], img.data.map (fun v => [v, v, v]) |>.flatten⟩
  | [h, w, c] =>
    if c = 1 then Except.ok ⟨[h, w, 3], img.data.map (fun v => [v, v, v]) |>.flatten⟩
    else if c = 3 then Except.ok img
    else if c = 4 then Except.ok ⟨[h, w, 3], take3of4 img.data⟩
    else Except.error s!"Unsupported number of channels: {c}"
  | sh => Except.error s!"Unsupported image dimensions: {sh.length}"

/-! ## Canonical 3-channel images and the transfer pipeline -/

/-- A canonical RGB image: three flat channel lists (red, green, blue). -/
structure Img where
  r : List ℚ
  g : List ℚ
  b : List ℚ
deriving DecidableEq

/-- Well-formed image: the three channels have the same number of pixels. -/
abbrev Img.wf (img : Img) : Prop :=
  img.g.length = img.r.length ∧ img.b.length = img.r.length

/-- Every sample of the list lies in [0,1]. -/
abbrev inRange01 (xs : List ℚ) : Prop := ∀ x ∈ xs, 0 ≤ x ∧ x ≤ 1

/-- Every sample of every channel lies in [0,1]. -/
abbrev Img.inRange (img : Img) : Prop :=
  inRange01 img.r ∧ inRange01 img.g ∧ inRange01 img.b

/-- The irrational-valued numeric library calls of the pipeline, abstracted:
`std` models `np.std` (root of the mean squared deviation), `scurve` models
`0.5 + 0.5 * sin(π * (v - 0.5))`, `pow08` models `v ** 0.8`.  Every theorem
quantifies over all `NumOps`, hence holds for the true functions. -/
structure NumOps where
  std : List ℚ → ℚ
  scurve : ℚ → ℚ
  pow08 : ℚ → ℚ

/-- Sorted copy of a channel (ascending). -/
def sortQ (l : List ℚ) : List ℚ := l.insertionSort (· ≤ ·)

/-- Modelled from the spec: the per-channel histogram matcher
(`skimage.exposure.match_histograms`, called at src/colorcast.py line 63, is
library code outside this repository).  Per spec section 4.3: each source
value is mapped to the reference value at the rank its empirical CDF assigns
it — rank `k` = number of source samples ≤ the value, output = `k`-th smallest
reference sample; ties share one output value.  Source and reference have
equal sample counts on every call (the shape reconciler runs first). -/
def matchChannel (src ref : List ℚ) : List ℚ :=
  src.map fun v => (sortQ ref).getD (src.countP (fun u => decide (u ≤ v)) - 1) 0

/-- `match_histograms_multichannel` (src/colorcast.py lines 51-64) after shape
reconciliation: per-channel histogram matching, no final clip. -/
def match_histograms_multichannel (source reference : Img) : Img :=
  ⟨matchChannel source.r reference.r, matchChannel source.g reference.g,
    matchChannel source.b reference.b⟩

/-- `np.mean` of a flat channel. -/
def npMean (xs : List ℚ) : ℚ := xs.sum / xs.length

/-- One channel of `color_transfer_meanstd` before the final clip
(src/colorcast.py line 84). -/
def meanstdChannel (ops : NumOps) (src ref : List ℚ) : List ℚ :=
  src.map fun v =>
    (v - npMean src) * (ops.std ref / (ops.std src + 1 / 100000000)) + npMean ref

/-- `np.clip(·, 0, 1)` over a channel. -/
def clip01 (xs : List ℚ) : List ℚ := xs.map fun x => clampQ x 0 1

/-- `color_transfer_meanstd` (src/colorcast.py lines 66-86) after shape
reconciliation: per-channel mean/std re-normalization, clipped to [0,1]. -/
def color_transfer_meanstd (ops : NumOps) (source reference : Img) : Img :=
  ⟨clip01 (meanstdChannel ops source.r reference.r),
    clip01 (meanstdChannel ops source.g reference.g),
    clip01 (meanstdChannel ops source.b reference.b)⟩

/-- `apply_curve` (src/colorcast.py lines 88-96): tone curve selected by name,
with an implicit identity fallback for any unknown `curve_type`. -/
def apply_curve (ops : NumOps) (values : List ℚ) (curve_type : String) : List ℚ :=
  if curve_type = "linear" then values
  else if curve_type = "s-curve" then values.map ops.scurve
  else if curve_type = "contrast" then values.map ops.pow08
  else values

/-- `lut_transfer_with_curve` (src/colorcast.py lines 98-114) after shape
reconciliation: histogram match each channel, apply the tone curve, clip. -/
def lut_transfer_with_curve (ops : NumOps) (source reference : Img) (curve_type : String) : Img :=
  ⟨clip01 (apply_curve ops (matchChannel source.r reference.r) curve_type),
    clip01 (apply_curve ops (matchChannel source.g reference.g) curve_type),
    clip01 (apply_curve ops (matchChannel source.b reference.b) curve_type)⟩

/-- Pointwise combination of three equal-length channels. -/
def zipWith3Q (f : ℚ → ℚ → ℚ → ℚ) : List ℚ → List ℚ → List ℚ → List ℚ
  | a :: as, b :: bs, c :: cs => f a b c :: zipWith3Q f as bs cs
  | _, _, _ => []

/-- Per-pixel luminance `0.299*R + 0.587*G + 0.114*B`
(src/colorcast.py line 127). -/
def lumOf (img : Img) : List ℚ :=
  zipWith3Q (fun x y z => 299 / 1000 * x + 587 / 1000 * y + 114 / 1000 * z) img.r img.g img.b

/-- The luminance mask of `selective_color_transfer`
(src/colorcast.py lines 129-138): 0/1 per pixel, all-ones for `full` and for
any unknown mode. -/
def regionMask (mode : String) (shadow_threshold highlight_threshold : ℚ) (lum : List ℚ) : List ℚ :=
  if mode = "full" then lum.map fun _ => 1
  else if mode = "shadows" then lum.map fun L => if L < shadow_threshold then 1 else 0
  else if mode = "midtones" then
    lum.map fun L => if shadow_threshold ≤ L ∧ L ≤ highlight_threshold then 1 else 0
  else if mode = "highlights" then lum.map fun L => if highlight_threshold < L then 1 else 0
  else lum.map fun _ => 1

/-- `selective_color_transfer` (src/colorcast.py lines 116-147) after shape
reconciliation: histogram match every channel, then keep the source outside
the mask and the matched value inside it (`source*(1-mask) + matched*mask`),
and clip.  The thresholds default to 0.3 and 0.7 at every call site. -/
def selective_color_transfer (source reference : Img) (mode : String)
    (shadow_threshold highlight_threshold : ℚ) : Img :=
  let mask := regionMask mode shadow_threshold highlight_threshold (lumOf source)
  let blendpx := fun s m k => s * (1 - k) + m * k
  ⟨clip01 (zipWith3Q blendpx source.r (matchChannel source.r reference.r) mask),
    clip01 (zipWith3Q blendpx source.g (matchChannel source.g reference.g) mask),
    clip01 (zipWith3Q blendpx source.b (matchChannel source.b reference.b) mask)⟩

/-- `blend_images` restricted to canonical same-shape images, as the pipeline
invokes it (src/colorcast.py line 351): clamp the intensity, then the
pointwise convex combination on every channel. -/
def blendImg (original styled : Img) (intensity : ℚ) : Img :=
  let c := clampQ intensity 0 1
  ⟨List.zipWith (fun x y => x * (1 - c) + y * c) original.r styled.r,
    List.zipWith (fun x y => x * (1 - c) + y * c) original.g styled.g,
    List.zipWith (fun x y => x * (1 - c) + y * c) original.b styled.b⟩

/-- The method dispatch of `StyleTransferApp.apply_style_transfer`
(src/colorcast.py lines 332-349): eight known identifiers, any other string
falling through to histogram matching. -/
def apply_style_transfer (ops : NumOps) (method : String) (content style : Img) : Img :=
  if method = "histogram" then match_histograms_multichannel content style
  else if method = "meanstd" then color_transfer_meanstd ops content style
  else if method = "lut_linear" then lut_transfer_with_curve ops content style "linear"
  else if method = "lut_scurve" then lut_transfer_with_curve ops content style "s-curve"
  else if method = "lut_contrast" then lut_transfer_with_curve ops content style "contrast"
  else if method = "selective_shadows" then
    selective_color_transfer content style "shadows" (3 / 10) (7 / 10)
  else if method = "selective_midtones" then
    selective_color_transfer content style "midtones" (3 / 10) (7 / 10)
  else if method = "selective_highlights" then
    selective_color_transfer content style "highlights" (3 / 10) (7 / 10)
  else match_histograms_multichannel content style

/-- The full transfer pipeline of `apply_style_transfer`
(src/colorcast.py lines 329-352): method stage, then the intensity blend. -/
def transferResult (ops : NumOps) (method : String) (content style : Img) (intensity : ℚ) : Img :=
  blendImg content (apply_style_transfer ops method content style) intensity

/-! ## Saving (src/colorcast.py lines 368-378) -/

/-- One sample of `save_result`'s conversion
(`(np.clip(self.result_image, 0, 1) * 255).astype(np.uint8)`,
src/colorcast.py line 374): clip to [0,1], scale by 255, then cast to uint8 —
numpy's float-to-integer cast truncates toward zero, which on these
non-negative, pre-clipped values is the floor. -/
def toUint8 (x : ℚ) : ℤ := ⌊clampQ x 0 1 * 255⌋

/-- The whole result image as saved by `save_result`. -/
def save_result (img : Img) : List ℤ × List ℤ × List ℤ :=
  (img.r.map toUint8, img.g.map toUint8, img.b.map toUint8)

/-- The conversion the spec claims for `save`: `round(clamp(x,0,1)*255)`. -/
def specSaveSample (x : ℚ) : ℤ := round (clampQ x 0 1 * 255)

/-! ## A real-valued model of the statistical transfer -/

/-- `np.mean` over the reals. -/
noncomputable def npMeanR (xs : List ℝ) : ℝ := xs.sum / xs.length

/-- `np.std` over the reals: square root of the mean squared deviation. -/
noncomputable def npStdR (xs : List ℝ) : ℝ :=
  Real.sqrt (npMeanR (xs.map fun x => (x - npMeanR xs) ^ 2))

/-- `np.clip(·, 0, 1)` on a real scalar. -/
noncomputable def clampR (x : ℝ) : ℝ := min (max x 0) 1

/-- A canonical RGB image with real samples. -/
structure RImg where
  r : List ℝ
  g : List ℝ
  b : List ℝ

/-- One channel of `color_transfer_meanstd` (src/colorcast.py line 84) over
the reals, with the genuine `np.std`. -/
noncomputable def meanstdChannelR (src ref : List ℝ) : List ℝ :=
  src.map fun v =>
    (v - npMeanR src) * (npStdR ref / (npStdR src + 1 / 100000000)) + npMeanR ref

/-- `color_transfer_meanstd` (src/colorcast.py lines 66-86) over the reals. -/
noncomputable def color_transfer_meanstdR (source reference : RImg) : RImg :=
  ⟨(meanstdChannelR source.r reference.r).map clampR,
    (meanstdChannelR source.g reference.g).map clampR,
    (meanstdChannelR source.b reference.b).map clampR⟩

/-! ## Basic lemmas -/

lemma clamp01_mem (x : ℚ) : 0 ≤ clampQ x 0 1 ∧ clampQ x 0 1 ≤ 1 :=
  ⟨le_min (le_max_right x 0) zero_le_one, min_le_right _ _⟩

lemma getD_map_default {α β : Type} (f : α → β) (da : α) (db : β) (h0 : f da = db)
    (l : List α) (n : ℕ) : (l.map f).getD n db = f (l.getD n da) := by
  induction l generalizing n with
  | nil => simp [h0]
  | cons x l ih =>
    cases n with
    | zero => simp
    | succ n => simpa using ih n

lemma getD_map_zero (f : ℚ → ℚ) (h0 : f 0 = 0) (l : List ℚ) (n : ℕ) :
    (l.map f).getD n 0 = f (l.getD n 0) :=
  getD_map_default f 0 0 h0 l n

lemma getD_map_lt {α β : Type} (f : α → β) (l : List α) (i : ℕ) (hi : i < l.length)
    (d : α) (e : β) : (l.map f).getD i e = f (l.getD i d) := by
  induction l generalizing i with
  | nil => simp at hi
  | cons x l ih =>
    cases i with
    | zero => simp
    | succ i =>
      simp only [List.map_cons, List.getD_cons_succ]
      exact ih i (by simpa using hi)

lemma getD_mem_or (l : List ℚ) (n : ℕ) (d : ℚ) : l.getD n d ∈ l ∨ l.getD n d = d := by
  induction l generalizing n with
  | nil => right; simp
  | cons x l ih =>
    cases n with
    | zero => left; simp
    | succ n =>
      simp only [List.getD_cons_succ]
      rcases ih n with h | h
      · exact Or.inl (List.mem_cons_of_mem _ h)
      · exact Or.inr h

lemma mem_zipWith {f : ℚ → ℚ → ℚ} :
    ∀ {xs ys : List ℚ} {z : ℚ}, z ∈ List.zipWith f xs ys → ∃ x ∈ xs, ∃ y ∈ ys, z = f x y := by
  intro xs
  induction xs with
  | nil => intro ys z h; simp at h
  | cons x xs ih =>
    intro ys z h
    cases ys with
    | nil => simp at h
    | cons y ys =>
      simp only [List.zipWith_cons_cons, List.mem_cons] at h
      rcases h with h | h
      · exact ⟨x, by simp, y, by simp, h⟩
      · obtain ⟨a, ha, b, hb, rfl⟩ := ih h
        exact ⟨a, List.mem_cons_of_mem _ ha, b, List.mem_cons_of_mem _ hb, rfl⟩

lemma zipWith_proj_left {f : ℚ → ℚ → ℚ} (hf : ∀ x y, f x y = x) :
    ∀ (xs ys : List ℚ), xs.length ≤ ys.length → List.zipWith f xs ys = xs
  | [], _, _ => by simp
  | x :: xs, [], h => by simp at h
  | x :: xs, y :: ys, h => by
    simp only [List.zipWith_cons_cons, hf]
    rw [zipWith_proj_left hf xs ys (by simpa using h)]

lemma zipWith_proj_right {f : ℚ → ℚ → ℚ} (hf : ∀ x y, f x y = y) :
    ∀ (xs ys : List ℚ), ys.length ≤ xs.length → List.zipWith f xs ys = ys
  | _, [], _ => by simp
  | [], y :: ys, h => by simp at h
  | x :: xs, y :: ys, h => by
    simp only [List.zipWith_cons_cons, hf]
    rw [zipWith_proj_right hf xs ys (by simpa using h)]

lemma clip01_inRange (xs : List ℚ) : inRange01 (clip01 xs) := by
  intro x hx
  simp only [clip01, List.mem_map] at hx
  obtain ⟨y, -, rfl⟩ := hx
  exact clamp01_mem y

/-! ## Sorted-rank lemma and histogram-matching facts -/

lemma sorted_getD_countP :
    ∀ (s : List ℚ), s.Sorted (· ≤ ·) → ∀ v ∈ s,
      s.getD (s.countP (fun u => decide (u ≤ v)) - 1) 0 = v := by
  intro s
  induction s with
  | nil => intro _ v hv; simp at hv
  | cons a t ih =>
    intro hs v hv
    rw [List.sorted_cons] at hs
    obtain ⟨ha, ht⟩ := hs
    rw [List.countP_cons]
    by_cases hav : a ≤ v
    · simp only [decide_eq_true hav, if_true]
      cases hk : t.countP (fun u => decide (u ≤ v)) with
      | zero =>
        have hva : v = a := by
          rcases List.mem_cons.mp hv with rfl | hvt
          · rfl
          · exfalso
            have hz := List.countP_eq_zero.mp hk v hvt
            simp at hz
        simp [hva]
      | succ k =>
        have hex : ∃ u ∈ t, decide (u ≤ v) = true := by
          apply List.countP_pos_iff.mp
          omega
        have hvt : v ∈ t := by
          rcases List.mem_cons.mp hv with rfl | hvt
          · obtain ⟨u, hu, huv⟩ := hex
            have h1 : u ≤ v := of_decide_eq_true huv
            have h2 : v ≤ u := ha u hu
            rw [← le_antisymm h1 h2]
            exact hu
          · exact hvt
        have hrec := ih ht v hvt
        rw [hk] at hrec
        simpa using hrec
    · exfalso
      have hva : v < a := lt_of_not_le hav
      rcases List.mem_cons.mp hv with rfl | hvt
      · exact hav le_rfl
      · exact absurd (ha v hvt) (not_le.mpr hva)

lemma matchChannel_self (x : List ℚ) : matchChannel x x = x := by
  have h : ∀ v ∈ x,
      (sortQ x).getD (x.countP (fun u => decide (u ≤ v)) - 1) 0 = v := by
    intro v hv
    have hperm : List.Perm (sortQ x) x := List.perm_insertionSort _ x
    rw [show x.countP (fun u => decide (u ≤ v))
        = (sortQ x).countP (fun u => decide (u ≤ v)) from (hperm.countP_eq _).symm]
    exact sorted_getD_countP (sortQ x) (List.sorted_insertionSort _ x) v (hperm.mem_iff.mpr hv)
  unfold matchChannel
  calc x.map (fun v => (sortQ x).getD (x.countP (fun u => decide (u ≤ v)) - 1) 0)
      = x.map (fun v => v) := List.map_congr_left h
    _ = x := List.map_id' x

lemma matchChannel_inRange (src ref : List ℚ) (href : inRange01 ref) :
    inRange01 (matchChannel src ref) := by
  intro z hz
  unfold matchChannel at hz
  simp only [List.mem_map] at hz
  obtain ⟨v, -, rfl⟩ := hz
  rcases getD_mem_or (sortQ ref) _ 0 with h | h
  · exact href _ ((List.perm_insertionSort _ ref).mem_iff.mp h)
  · rw [h]; norm_num

/-! ## Range preservation through every pipeline stage -/

lemma convex01 {x y c : ℚ} (hx : 0 ≤ x ∧ x ≤ 1) (hy : 0 ≤ y ∧ y ≤ 1)
    (hc : 0 ≤ c ∧ c ≤ 1) : 0 ≤ x * (1 - c) + y * c ∧ x * (1 - c) + y * c ≤ 1 := by
  obtain ⟨hx0, hx1⟩ := hx
  obtain ⟨hy0, hy1⟩ := hy
  obtain ⟨hc0, hc1⟩ := hc
  constructor
  · have h1 : 0 ≤ x * (1 - c) := mul_nonneg hx0 (by linarith)
    have h2 : 0 ≤ y * c := mul_nonneg hy0 hc0
    linarith
  · have h1 : x * (1 - c) ≤ 1 * (1 - c) := mul_le_mul_of_nonneg_right hx1 (by linarith)
    have h2 : y * c ≤ 1 * c := mul_le_mul_of_nonneg_right hy1 hc0
    linarith

lemma blendImg_inRange {original styled : Img} (ho : original.inRange)
    (hs : styled.inRange) (t : ℚ) : (blendImg original styled t).inRange := by
  unfold blendImg
  refine ⟨?_, ?_, ?_⟩ <;> intro z hz
  · obtain ⟨x, hx, y, hy, rfl⟩ := mem_zipWith hz
    exact convex01 (ho.1 x hx) (hs.1 y hy) (clamp01_mem t)
  · obtain ⟨x, hx, y, hy, rfl⟩ := mem_zipWith hz
    exact convex01 (ho.2.1 x hx) (hs.2.1 y hy) (clamp01_mem t)
  · obtain ⟨x, hx, y, hy, rfl⟩ := mem_zipWith hz
    exact convex01 (ho.2.2 x hx) (hs.2.2 y hy) (clamp01_mem t)

lemma match_inRange {content style : Img} (hs : style.inRange) :
    (match_histograms_multichannel content style).inRange :=
  ⟨matchChannel_inRange _ _ hs.1, matchChannel_inRange _ _ hs.2.1,
    matchChannel_inRange _ _ hs.2.2⟩

lemma styled_inRange (ops : NumOps) (method : String) {content style : Img}
    (hs : style.inRange) : (apply_style_transfer ops method content style).inRange := by
  unfold apply_style_transfer
  split_ifs
  · exact match_inRange hs
  · exact ⟨clip01_inRange _, clip01_inRange _, clip01_inRange _⟩
  · exact ⟨clip01_inRange _, clip01_inRange _, clip01_inRange _⟩
  · exact ⟨clip01_inRange _, clip01_inRange _, clip01_inRange _⟩
  · exact ⟨clip01_inRange _, clip01_inRange _, clip01_inRange _⟩
  · exact ⟨clip01_inRange _, clip01_inRange _, clip01_inRange _⟩
  · exact ⟨clip01_inRange _, clip01_inRange _, clip01_inRange _⟩
  · exact ⟨clip01_inRange _, clip01_inRange _, clip01_inRange _⟩
  · exact match_inRange hs

/-- C1: for every pair of input images all of whose samples lie in [0,1],
every method identifier (the eight known ones and any other string), and
every intensity value, every sample of the full transfer pipeline's output
(method stage followed by the intensity blend) lies in [0,1] — including the
histogram path, whose styled image is never explicitly clipped.  The theorem
quantifies over all `NumOps`, so it covers the true `np.std`/`sin`/`**`
values, and over all channel lengths, so it covers every post-reconciliation
input pair. -/
theorem range_invariant (ops : NumOps) (method : String) (content style : Img)
    (intensity : ℚ) (hc : content.inRange) (hs : style.inRange) :
    (transferResult ops method content style intensity).inRange :=
  blendImg_inRange hc (styled_inRange ops method hs) intensity

/-- Witness for C1 at a concrete input: a meanstd transfer at intensity 2
(clamped) of in-range images stays in range. -/
theorem range_invariant_witness :
    Img.inRange ⟨[0, 1], [1, 0], [1, 1]⟩ ∧ Img.inRange ⟨[1, 0], [0, 0], [0, 1]⟩ ∧
      (transferResult ⟨fun _ => 0, fun v => v, fun v => v⟩ "meanstd"
        ⟨[0, 1], [1, 0], [1, 1]⟩ ⟨[1, 0], [0, 0], [0, 1]⟩ 2).inRange :=
  ⟨by decide, by decide,
    range_invariant ⟨fun _ => 0, fun v => v, fun v => v⟩ "meanstd"
      ⟨[0, 1], [1, 0], [1, 1]⟩ ⟨[1, 0], [0, 0], [0, 1]⟩ 2
      (by decide) (by decide)⟩

/-- C10: `apply_curve` returns its input unchanged for every `curve_type`
other than the three known ones — the tone-curve stage never fails, whatever
selector is supplied. -/
theorem apply_curve_fallback (ops : NumOps) (values : List ℚ) (curve_type : String)
    (h : curve_type ∉ ["linear", "s-curve", "contrast"]) :
    apply_curve ops values curve_type = values := by
  simp only [List.mem_cons, List.not_mem_nil, or_false, not_or] at h
  obtain ⟨h1, h2, h3⟩ := h
  simp [apply_curve, h1, h2, h3]

/-- Witness for C10: the unknown selector "gamma" leaves a concrete channel
unchanged. -/
theorem apply_curve_fallback_witness :
    apply_curve ⟨fun _ => 0, fun v => v + 1, fun v => v + 2⟩ [1/2, 3/4] "gamma" = [1/2, 3/4] :=
  apply_curve_fallback ⟨fun _ => 0, fun v => v + 1, fun v => v + 2⟩ [1/2, 3/4] "gamma" (by decide)

/-- C5: invoking the dispatcher with a method identifier that is none of the
eight known ones produces output identical to invoking it with "histogram" on
the same inputs — for every content, style, and intensity; it is not an
error. -/
theorem unknown_method_histogram (ops : NumOps) (method : String) (content style : Img)
    (intensity : ℚ)
    (h : method ∉ ["histogram", "meanstd", "lut_linear", "lut_scurve", "lut_contrast",
      "selective_shadows", "selective_midtones", "selective_highlights"]) :
    transferResult ops method content style intensity
      = transferResult ops "histogram" content style intensity := by
  simp only [List.mem_cons, List.not_mem_nil, or_false, not_or] at h
  obtain ⟨h1, h2, h3, h4, h5, h6, h7, h8⟩ := h
  simp [transferResult, apply_style_transfer, h1, h2, h3, h4, h5, h6, h7, h8]

/-- Witness for C5: the unknown identifier "bogus" gives bit-for-bit the
histogram output on a concrete input. -/
theorem unknown_method_histogram_witness :
    transferResult ⟨fun _ => 0, fun v => v, fun v => v⟩ "bogus"
        ⟨[1/2], [0], [1]⟩ ⟨[1], [1/2], [0]⟩ (4/5)
      = transferResult ⟨fun _ => 0, fun v => v, fun v => v⟩ "histogram"
        ⟨[1/2], [0], [1]⟩ ⟨[1], [1/2], [0]⟩ (4/5) :=
  unknown_method_histogram ⟨fun _ => 0, fun v => v, fun v => v⟩ "bogus"
    ⟨[1/2], [0], [1]⟩ ⟨[1], [1/2], [0]⟩ (4/5) (by decide)

/-- C8: transferring any image onto itself with the histogram method at
intensity 1.0 is the identity — matching a channel's distribution to itself
is the identity, and blending at intensity 1.0 returns the styled image
unchanged.  Exact over ℚ (no floating-point tolerance needed). -/
theorem histogram_self_identity (ops : NumOps) (X : Img) :
    transferResult ops "histogram" X X 1 = X := by
  have hmatch : match_histograms_multichannel X X = X := by
    unfold match_histograms_multichannel
    rw [matchChannel_self, matchChannel_self, matchChannel_self]
  have hstyled : apply_style_transfer ops "histogram" X X = X := by
    simpa [apply_style_transfer] using hmatch
  have hc : clampQ 1 0 1 = 1 := by norm_num [clampQ]
  have hz : ∀ l : List ℚ, List.zipWith (fun x y => x * (1 - (1:ℚ)) + y * 1) l l = l := by
    intro l
    exact zipWith_proj_right (by intro x y; ring) l l le_rfl
  unfold transferResult
  rw [hstyled]
  simp only [blendImg, hc]
  rw [hz, hz, hz]

/-! ## Region masks (claim C6) -/

lemma regionMask_shadows_getD (lum : List ℚ) (st ht : ℚ) (i : ℕ) (hi : i < lum.length) :
    (regionMask "shadows" st ht lum).getD i 0 = if lum.getD i 0 < st then 1 else 0 := by
  have h : regionMask "shadows" st ht lum = lum.map fun L => if L < st then (1:ℚ) else 0 := by
    simp [regionMask]
  rw [h]
  exact getD_map_lt _ _ i hi 0 0

lemma regionMask_midtones_getD (lum : List ℚ) (st ht : ℚ) (i : ℕ) (hi : i < lum.length) :
    (regionMask "midtones" st ht lum).getD i 0
      = if st ≤ lum.getD i 0 ∧ lum.getD i 0 ≤ ht then 1 else 0 := by
  have h : regionMask "midtones" st ht lum
      = lum.map fun L => if st ≤ L ∧ L ≤ ht then (1:ℚ) else 0 := by
    simp [regionMask]
  rw [h]
  exact getD_map_lt _ _ i hi 0 0

lemma regionMask_highlights_getD (lum : List ℚ) (st ht : ℚ) (i : ℕ) (hi : i < lum.length) :
    (regionMask "highlights" st ht lum).getD i 0 = if ht < lum.getD i 0 then 1 else 0 := by
  have h : regionMask "highlights" st ht lum = lum.map fun L => if ht < L then (1:ℚ) else 0 := by
    simp [regionMask]
  rw [h]
  exact getD_map_lt _ _ i hi 0 0

/-- C6: on any content image, each pixel's luminance is claimed by exactly
one of the three selective masks — shadows (L < 0.3), midtones
(0.3 ≤ L ≤ 0.7), highlights (L > 0.7) — so the masks are pairwise disjoint
and jointly cover every pixel; a pixel whose luminance is exactly 0.3 or
exactly 0.7 is assigned to midtones. -/
theorem region_partition (source : Img) (i : ℕ) (hi : i < (lumOf source).length) :
    ((regionMask "shadows" (3/10) (7/10) (lumOf source)).getD i 0 = 1 ∧
        (regionMask "midtones" (3/10) (7/10) (lumOf source)).getD i 0 = 0 ∧
        (regionMask "highlights" (3/10) (7/10) (lumOf source)).getD i 0 = 0 ∨
      (regionMask "shadows" (3/10) (7/10) (lumOf source)).getD i 0 = 0 ∧
        (regionMask "midtones" (3/10) (7/10) (lumOf source)).getD i 0 = 1 ∧
        (regionMask "highlights" (3/10) (7/10) (lumOf source)).getD i 0 = 0 ∨
      (regionMask "shadows" (3/10) (7/10) (lumOf source)).getD i 0 = 0 ∧
        (regionMask "midtones" (3/10) (7/10) (lumOf source)).getD i 0 = 0 ∧
        (regionMask "highlights" (3/10) (7/10) (lumOf source)).getD i 0 = 1) ∧
    (((lumOf source).getD i 0 = 3/10 ∨ (lumOf source).getD i 0 = 7/10) →
      (regionMask "midtones" (3/10) (7/10) (lumOf source)).getD i 0 = 1) := by
  rw [regionMask_shadows_getD _ _ _ i hi, regionMask_midtones_getD _ _ _ i hi,
    regionMask_highlights_getD _ _ _ i hi]
  set L := (lumOf source).getD i 0 with hL
  constructor
  · by_cases h1 : L < 3/10
    · refine Or.inl ⟨if_pos h1, if_neg ?_, if_neg ?_⟩
      · rintro ⟨ha, -⟩
        exact absurd h1 (not_lt.mpr ha)
      · intro h
        have : (3:ℚ)/10 < 7/10 := by norm_num
        exact absurd (h1.trans this) (lt_asymm h)
    · by_cases h2 : L ≤ 7/10
      · exact Or.inr (Or.inl ⟨if_neg h1, if_pos ⟨le_of_not_lt h1, h2⟩, if_neg (not_lt.mpr h2)⟩)
      · refine Or.inr (Or.inr ⟨if_neg h1, if_neg ?_, if_pos (lt_of_not_le h2)⟩)
        rintro ⟨-, hb⟩
        exact h2 hb
  · intro hb
    rcases hb with hb | hb
    · rw [if_pos]
      rw [hb]
      norm_num
    · rw [if_pos]
      rw [hb]
      norm_num

/-- Witness for C6 at a concrete pixel: the single pixel of an all-white
image is claimed by exactly one mask, and the boundary rule holds there. -/
theorem region_partition_witness :
    ((regionMask "shadows" (3/10) (7/10) (lumOf ⟨[1],[1],[1]⟩)).getD 0 0 = 1 ∧
        (regionMask "midtones" (3/10) (7/10) (lumOf ⟨[1],[1],[1]⟩)).getD 0 0 = 0 ∧
        (regionMask "highlights" (3/10) (7/10) (lumOf ⟨[1],[1],[1]⟩)).getD 0 0 = 0 ∨
      (regionMask "shadows" (3/10) (7/10) (lumOf ⟨[1],[1],[1]⟩)).getD 0 0 = 0 ∧
        (regionMask "midtones" (3/10) (7/10) (lumOf ⟨[1],[1],[1]⟩)).getD 0 0 = 1 ∧
        (regionMask "highlights" (3/10) (7/10) (lumOf ⟨[1],[1],[1]⟩)).getD 0 0 = 0 ∨
      (regionMask "shadows" (3/10) (7/10) (lumOf ⟨[1],[1],[1]⟩)).getD 0 0 = 0 ∧
        (regionMask "midtones" (3/10) (7/10) (lumOf ⟨[1],[1],[1]⟩)).getD 0 0 = 0 ∧
        (regionMask "highlights" (3/10) (7/10) (lumOf ⟨[1],[1],[1]⟩)).getD 0 0 = 1) ∧
    (((lumOf ⟨[1],[1],[1]⟩).getD 0 0 = 3/10 ∨ (lumOf ⟨[1],[1],[1]⟩).getD 0 0 = 7/10) →
      (regionMask "midtones" (3/10) (7/10) (lumOf ⟨[1],[1],[1]⟩)).getD 0 0 = 1) :=
  region_partition ⟨[1],[1],[1]⟩ 0 (by decide)

/-! ## Saving (claim C4) -/

lemma clampQ_999 : clampQ (999/1000) 0 1 = 999/1000 := by
  rw [clampQ, max_eq_left (by norm_num), min_eq_left (by norm_num)]

/-- C4 counterexample: at the sample 0.999 the save conversion of the code
(`astype(np.uint8)`, which truncates) produces 254, while
`round(clamp(x,0,1)*255)` is 255 — so the claim as stated is false. -/
theorem save_round_counterexample :
    (save_result ⟨[999/1000], [999/1000], [999/1000]⟩).1 = [254] ∧
      specSaveSample (999/1000) = 255 := by
  have hfloor : toUint8 (999/1000) = 254 := by
    rw [toUint8, clampQ_999, Int.floor_eq_iff]
    norm_num
  constructor
  · show List.map toUint8 [999/1000] = [254]
    rw [List.map_singleton, hfloor]
  · rw [specSaveSample, clampQ_999, round_eq, Int.floor_eq_iff]
    norm_num

/-- C4 amended: the save operation converts each floating-point sample `x` to
the 8-bit value `floor(clamp(x,0,1)*255)` — numpy's uint8 cast truncates
rather than rounds — for every channel and position; the result always lies
in [0,255] and differs from `round(clamp(x,0,1)*255)` by at most 1 (it equals
it whenever `clamp(x,0,1)*255` has fractional part below one half). -/
theorem save_truncates :
    (∀ x : ℚ, toUint8 x = ⌊clampQ x 0 1 * 255⌋ ∧
      0 ≤ toUint8 x ∧ toUint8 x ≤ 255 ∧
      specSaveSample x - 1 ≤ toUint8 x ∧ toUint8 x ≤ specSaveSample x) ∧
    (∀ (img : Img) (i : ℕ),
      (save_result img).1.getD i 0 = ⌊clampQ (img.r.getD i 0) 0 1 * 255⌋ ∧
      (save_result img).2.1.getD i 0 = ⌊clampQ (img.g.getD i 0) 0 1 * 255⌋ ∧
      (save_result img).2.2.getD i 0 = ⌊clampQ (img.b.getD i 0) 0 1 * 255⌋) := by
  have hzero : toUint8 0 = 0 := by
    rw [toUint8, show clampQ 0 0 1 = 0 from by rw [clampQ]; norm_num]
    norm_num
  constructor
  · intro x
    obtain ⟨hc0, hc1⟩ := clamp01_mem x
    have hy0 : (0:ℚ) ≤ clampQ x 0 1 * 255 := mul_nonneg hc0 (by norm_num)
    have hy1 : clampQ x 0 1 * 255 ≤ 255 := by
      calc clampQ x 0 1 * 255 ≤ 1 * 255 := mul_le_mul_of_nonneg_right hc1 (by norm_num)
        _ = 255 := by norm_num
    refine ⟨rfl, ?_, ?_, ?_, ?_⟩
    · exact Int.le_floor.mpr (by exact_mod_cast hy0)
    · calc toUint8 x ≤ ⌊(255:ℚ)⌋ := Int.floor_le_floor hy1
        _ = 255 := by norm_num
    · rw [specSaveSample, round_eq]
      have h1 : ⌊clampQ x 0 1 * 255 + 1/2⌋ ≤ ⌊clampQ x 0 1 * 255 + 1⌋ :=
        Int.floor_le_floor (by linarith)
      rw [Int.floor_add_one] at h1
      rw [toUint8]
      omega
    · rw [specSaveSample, round_eq, toUint8]
      exact Int.floor_le_floor (by linarith)
  · intro img i
    refine ⟨?_, ?_, ?_⟩
    · show (img.r.map toUint8).getD i 0 = _
      rw [getD_map_default toUint8 0 0 hzero]
      rfl
    · show (img.g.map toUint8).getD i 0 = _
      rw [getD_map_default toUint8 0 0 hzero]
      rfl
    · show (img.b.map toUint8).getD i 0 = _
      rw [getD_map_default toUint8 0 0 hzero]
      rfl

/-! ## The statistical-transfer contract over the reals (claim C7) -/

lemma npMeanR_replicate (x : ℝ) : npMeanR (List.replicate 4 x) = x := by
  rw [npMeanR, List.sum_replicate, List.length_replicate]
  push_cast
  ring

lemma npStdR_replicate (x : ℝ) : npStdR (List.replicate 4 x) = 0 := by
  rw [npStdR, List.map_replicate, npMeanR_replicate, npMeanR_replicate]
  rw [show (x - x)^2 = (0:ℝ) by ring, Real.sqrt_zero]

lemma meanstd_clamp_channel_getD (src ref : List ℝ) (i : ℕ) (hi : i < src.length) :
    ((meanstdChannelR src ref).map clampR).getD i 0
      = clampR ((src.getD i 0 - npMeanR src)
          * (npStdR ref / (npStdR src + 1 / 100000000)) + npMeanR ref) := by
  have hlen : i < (meanstdChannelR src ref).length := by
    simpa [meanstdChannelR] using hi
  rw [getD_map_lt clampR _ i hlen 0 0]
  rw [show meanstdChannelR src ref = src.map fun v =>
      (v - npMeanR src) * (npStdR ref / (npStdR src + 1 / 100000000)) + npMeanR ref from rfl]
  rw [getD_map_lt _ src i hi 0 0]

/-- C7: the statistical transfer computes, per channel, the affine map
`(source - mean(source)) * (std(reference) / (std(source) + 1e-8))
+ mean(reference)` and clamps the result to [0,1] as a final step; and on the
concrete 2×2 scenario — every content pixel (0.2,0.2,0.2), every style pixel
(0.8,0.8,0.8) — every output pixel is exactly (0.8,0.8,0.8) (both stds are 0,
the ratio is 0/(0+1e-8) = 0, the reference mean survives the clamp). -/
theorem meanstd_contract :
    (∀ (src ref : List ℝ) (i : ℕ), i < src.length →
      ((meanstdChannelR src ref).map clampR).getD i 0
        = clampR ((src.getD i 0 - npMeanR src)
            * (npStdR ref / (npStdR src + 1 / 100000000)) + npMeanR ref)) ∧
    color_transfer_meanstdR
        ⟨List.replicate 4 (1/5), List.replicate 4 (1/5), List.replicate 4 (1/5)⟩
        ⟨List.replicate 4 (4/5), List.replicate 4 (4/5), List.replicate 4 (4/5)⟩
      = ⟨List.replicate 4 (4/5), List.replicate 4 (4/5), List.replicate 4 (4/5)⟩ := by
  constructor
  · exact meanstd_clamp_channel_getD
  · have hch : (meanstdChannelR (List.replicate 4 ((1:ℝ)/5)) (List.replicate 4 (4/5))).map clampR
        = List.replicate 4 (4/5) := by
      rw [meanstdChannelR, List.map_replicate, npMeanR_replicate, npMeanR_replicate,
        npStdR_replicate, npStdR_replicate, List.map_replicate]
      have hval : ((1:ℝ)/5 - 1/5) * ((0:ℝ) / (0 + 1 / 100000000)) + 4/5 = 4/5 := by
        norm_num
      rw [hval]
      have hcl : clampR ((4:ℝ)/5) = 4/5 := by
        rw [clampR, max_eq_left (by norm_num), min_eq_left (by norm_num)]
      rw [hcl]
    show color_transfer_meanstdR _ _ = _
    rw [color_transfer_meanstdR]
    simp only [hch]

/-- Witness for C7's per-sample contract at a concrete channel and index. -/
theorem meanstd_contract_witness :
    ((meanstdChannelR [(1:ℝ)] [0]).map clampR).getD 0 0
      = clampR ((List.getD [(1:ℝ)] 0 0 - npMeanR [1])
          * (npStdR [0] / (npStdR [1] + 1 / 100000000)) + npMeanR [0]) :=
  meanstd_contract.1 [1] [0] 0 (by decide)

/-! ## Index machinery for flat numpy arrays -/

lemma mem_allIdx : ∀ {sh ix : List Nat}, ix ∈ allIdx sh → List.Forall₂ (· < ·) ix sh := by
  intro sh
  induction sh with
  | nil =>
    intro ix h
    simp only [allIdx, List.mem_singleton] at h
    subst h
    exact List.Forall₂.nil
  | cons d ds ih =>
    intro ix h
    simp only [allIdx, List.mem_flatten, List.mem_map] at h
    obtain ⟨l, ⟨i, hi, rfl⟩, hix⟩ := h
    simp only [List.mem_map] at hix
    obtain ⟨is, his, rfl⟩ := hix
    exact List.Forall₂.cons (List.mem_range.mp hi) (ih his)

lemma opIdx_self {ix sh : List Nat} (h : List.Forall₂ (· < ·) ix sh) : opIdx sh ix = ix := by
  rw [opIdx, h.length_eq, Nat.sub_self, List.drop_zero]
  induction h with
  | nil => rfl
  | @cons i d is ds hd _ ih =>
    simp only [List.zipWith_cons_cons]
    rw [ih]
    by_cases hd1 : d = 1
    · subst hd1
      have hi0 : i = 0 := by omega
      subst hi0
      simp
    · simp [hd1]

lemma range_flatten_mul (d P : ℕ) :
    ((List.range d).map fun i => (List.range P).map fun r => i * P + r).flatten
      = List.range (d * P) := by
  induction d with
  | zero => simp
  | succ d ih =>
    rw [List.range_succ, List.map_append, List.flatten_append, ih]
    simp only [List.map_cons, List.map_nil, List.flatten_cons, List.flatten_nil,
      List.append_nil]
    rw [Nat.succ_mul, List.range_add]

lemma offsets_allIdx : ∀ (sh : List Nat), (allIdx sh).map (offset sh) = List.range sh.prod := by
  intro sh
  induction sh with
  | nil =>
    have h1 : List.range 1 = [0] := by
      rw [List.range_succ, List.range_zero, List.nil_append]
    simp [allIdx, offset, h1]
  | cons d ds ih =>
    have hexp : allIdx (d :: ds) = ((List.range d).map fun i => (allIdx ds).map (i :: ·)).flatten := rfl
    rw [hexp, List.map_flatten, List.map_map]
    have hcomp : ((List.map (offset (d :: ds))) ∘ fun i => (allIdx ds).map (i :: ·))
        = fun i => (List.range ds.prod).map fun r => i * ds.prod + r := by
      funext i
      show ((allIdx ds).map (i :: ·)).map (offset (d :: ds)) = _
      rw [List.map_map]
      have h1 : (offset (d :: ds)) ∘ (i :: ·) = (fun r => i * ds.prod + r) ∘ offset ds := rfl
      rw [h1, ← List.map_map, ih]
    rw [hcomp, range_flatten_mul, List.prod_cons]

lemma range_map_getD (f : ℚ → ℚ → ℚ) :
    ∀ (n : ℕ) (xs ys : List ℚ), xs.length = n → ys.length = n →
      (List.range n).map (fun j => f (xs.getD j 0) (ys.getD j 0)) = List.zipWith f xs ys := by
  intro n
  induction n with
  | zero =>
    intro xs ys hx hy
    rw [List.length_eq_zero] at hx hy
    subst hx
    subst hy
    simp
  | succ n ih =>
    intro xs ys hx hy
    cases xs with
    | nil => simp at hx
    | cons x xs =>
      cases ys with
      | nil => simp at hy
      | cons y ys =>
        rw [List.range_succ_eq_map]
        simp only [List.map_cons, List.getD_cons_zero, List.map_map, List.zipWith_cons_cons]
        congr 1
        have hfun : ((fun j => f ((x :: xs).getD j 0) ((y :: ys).getD j 0)) ∘ Nat.succ)
            = fun j => f (xs.getD j 0) (ys.getD j 0) := by
          funext j
          simp [Function.comp, List.getD_cons_succ]
        rw [hfun]
        exact ih xs ys (by simpa using hx) (by simpa using hy)

lemma bcRev_self : ∀ (xs : List Nat), bcRev xs xs = some xs := by
  intro xs
  induction xs with
  | nil => rfl
  | cons x xs ih => simp [bcRev, ih]

lemma broadcastShapes_self (s : List Nat) : broadcastShapes s s = some s := by
  rw [broadcastShapes, bcRev_self]
  simp

lemma npBinop_same_shape (f : ℚ → ℚ → ℚ) (a b : NpArr) (hsh : a.shape = b.shape)
    (ha : a.data.length = a.shape.prod) (hb : b.data.length = b.shape.prod) :
    npBinop f a b = Except.ok ⟨a.shape, List.zipWith f a.data b.data⟩ := by
  obtain ⟨asp, ad⟩ := a
  obtain ⟨bsp, bd⟩ := b
  simp only at hsh ha hb
  subst hsh
  have hbc : broadcastShapes asp asp = some asp := broadcastShapes_self asp
  simp only [npBinop, hbc]
  have hdata : (allIdx asp).map
        (fun ix => f (getAt ⟨asp, ad⟩ (opIdx asp ix)) (getAt ⟨asp, bd⟩ (opIdx asp ix)))
      = List.zipWith f ad bd := by
    have hstep1 : (allIdx asp).map
          (fun ix => f (getAt ⟨asp, ad⟩ (opIdx asp ix)) (getAt ⟨asp, bd⟩ (opIdx asp ix)))
        = (allIdx asp).map (fun ix => f (ad.getD (offset asp ix) 0) (bd.getD (offset asp ix) 0)) := by
      apply List.map_congr_left
      intro ix hix
      rw [opIdx_self (mem_allIdx hix)]
      rfl
    rw [hstep1]
    have hstep2 : (allIdx asp).map
          (fun ix => f (ad.getD (offset asp ix) 0) (bd.getD (offset asp ix) 0))
        = ((allIdx asp).map (offset asp)).map (fun j => f (ad.getD j 0) (bd.getD j 0)) := by
      rw [List.map_map]
      rfl
    rw [hstep2, offsets_allIdx]
    exact range_map_getD f asp.prod ad bd ha hb
  rw [hdata]

/-! ## The Compositor contract (claims C2 and C3) -/

lemma clampQ_zero : clampQ 0 0 1 = 0 := by
  rw [clampQ, max_self]
  exact min_eq_left (by norm_num)

lemma clampQ_one : clampQ 1 0 1 = 1 := by
  rw [clampQ, max_eq_left (by norm_num)]
  exact min_self 1

lemma clampQ_of_mem {x : ℚ} (h0 : 0 ≤ x) (h1 : x ≤ 1) : clampQ x 0 1 = x := by
  rw [clampQ, max_eq_left h0, min_eq_left h1]

lemma blend_images_same_shape (a b : NpArr) (t : ℚ) (hsh : a.shape = b.shape)
    (ha : a.data.length = a.shape.prod) (hb : b.data.length = b.shape.prod) :
    blend_images a b t = Except.ok ⟨a.shape,
      List.zipWith (fun x y => x * (1 - clampQ t 0 1) + y * clampQ t 0 1) a.data b.data⟩ := by
  rw [blend_images]
  rw [npBinop_same_shape (· + ·) (npScale (1 - clampQ t 0 1) a) (npScale (clampQ t 0 1) b)
    hsh (by simp [npScale, ha]) (by simp [npScale, hb])]
  simp only [npScale]
  have hzw : List.zipWith (· + ·) (a.data.map fun x => x * (1 - clampQ t 0 1))
        (b.data.map fun x => x * clampQ t 0 1)
      = List.zipWith (fun x y => x * (1 - clampQ t 0 1) + y * clampQ t 0 1) a.data b.data := by
    rw [List.zipWith_map]
  rw [hzw]

lemma zipWith3Q_length (f : ℚ → ℚ → ℚ → ℚ) :
    ∀ (as bs cs : List ℚ), bs.length = as.length → cs.length = as.length →
      (zipWith3Q f as bs cs).length = as.length := by
  intro as
  induction as with
  | nil =>
    intro bs cs hb hc
    simp only [List.length_nil] at hb hc
    rw [List.length_eq_zero] at hb hc
    subst hb
    subst hc
    rfl
  | cons a as ih =>
    intro bs cs hb hc
    cases bs with
    | nil => simp at hb
    | cons b bs =>
      cases cs with
      | nil => simp at hc
      | cons c cs =>
        simp only [zipWith3Q, List.length_cons]
        rw [ih bs cs (by simpa using hb) (by simpa using hc)]

lemma matchChannel_length (src ref : List ℚ) : (matchChannel src ref).length = src.length := by
  simp [matchChannel]

lemma clip01_length (xs : List ℚ) : (clip01 xs).length = xs.length := by
  simp [clip01]

lemma apply_curve_length (ops : NumOps) (xs : List ℚ) (ct : String) :
    (apply_curve ops xs ct).length = xs.length := by
  unfold apply_curve
  split_ifs <;> simp

lemma regionMask_length (mode : String) (st ht : ℚ) (lum : List ℚ) :
    (regionMask mode st ht lum).length = lum.length := by
  unfold regionMask
  split_ifs <;> simp

lemma selective_lengths {c : Img} (hwf : c.wf) (ref : Img) (mode : String) (st ht : ℚ) :
    (selective_color_transfer c ref mode st ht).r.length = c.r.length ∧
    (selective_color_transfer c ref mode st ht).g.length = c.g.length ∧
    (selective_color_transfer c ref mode st ht).b.length = c.b.length := by
  obtain ⟨hg, hb⟩ := hwf
  have hlum : (lumOf c).length = c.r.length := zipWith3Q_length _ _ _ _ hg hb
  have hmask : (regionMask mode st ht (lumOf c)).length = c.r.length := by
    rw [regionMask_length, hlum]
  refine ⟨?_, ?_, ?_⟩
  · show (clip01 (zipWith3Q _ c.r (matchChannel c.r ref.r)
      (regionMask mode st ht (lumOf c)))).length = c.r.length
    rw [clip01_length]
    exact zipWith3Q_length _ _ _ _ (matchChannel_length _ _) hmask
  · show (clip01 (zipWith3Q _ c.g (matchChannel c.g ref.g)
      (regionMask mode st ht (lumOf c)))).length = c.g.length
    rw [clip01_length]
    exact zipWith3Q_length _ _ _ _ (matchChannel_length _ _) (by rw [hmask, hg])
  · show (clip01 (zipWith3Q _ c.b (matchChannel c.b ref.b)
      (regionMask mode st ht (lumOf c)))).length = c.b.length
    rw [clip01_length]
    exact zipWith3Q_length _ _ _ _ (matchChannel_length _ _) (by rw [hmask, hb])

lemma styled_lengths (ops : NumOps) (m : String) {c : Img} (s : Img) (hwf : c.wf) :
    (apply_style_transfer ops m c s).r.length = c.r.length ∧
    (apply_style_transfer ops m c s).g.length = c.g.length ∧
    (apply_style_transfer ops m c s).b.length = c.b.length := by
  have hms : ∀ src ref, (clip01 (meanstdChannel ops src ref)).length = src.length := by
    intro src ref
    rw [clip01_length]
    simp [meanstdChannel]
  have hlut : ∀ src ref ct, (clip01 (apply_curve ops (matchChannel src ref) ct)).length
      = src.length := by
    intro src ref ct
    rw [clip01_length, apply_curve_length, matchChannel_length]
  unfold apply_style_transfer
  split_ifs
  · exact ⟨matchChannel_length _ _, matchChannel_length _ _, matchChannel_length _ _⟩
  · exact ⟨hms _ _, hms _ _, hms _ _⟩
  · exact ⟨hlut _ _ _, hlut _ _ _, hlut _ _ _⟩
  · exact ⟨hlut _ _ _, hlut _ _ _, hlut _ _ _⟩
  · exact ⟨hlut _ _ _, hlut _ _ _, hlut _ _ _⟩
  · exact selective_lengths hwf s _ _ _
  · exact selective_lengths hwf s _ _ _
  · exact selective_lengths hwf s _ _ _
  · exact ⟨matchChannel_length _ _, matchChannel_length _ _, matchChannel_length _ _⟩

lemma blendImg_at_zero {c styled : Img} (hr : c.r.length ≤ styled.r.length)
    (hg : c.g.length ≤ styled.g.length) (hb : c.b.length ≤ styled.b.length) :
    blendImg c styled 0 = c := by
  simp only [blendImg, clampQ_zero]
  have hf : ∀ x y : ℚ, x * (1 - 0) + y * 0 = x := fun x y => by ring
  rw [zipWith_proj_left hf _ _ hr, zipWith_proj_left hf _ _ hg, zipWith_proj_left hf _ _ hb]

lemma blendImg_at_one {c styled : Img} (hr : styled.r.length ≤ c.r.length)
    (hg : styled.g.length ≤ c.g.length) (hb : styled.b.length ≤ c.b.length) :
    blendImg c styled 1 = styled := by
  simp only [blendImg, clampQ_one]
  have hf : ∀ x y : ℚ, x * (1 - 1) + y * 1 = y := fun x y => by ring
  rw [zipWith_proj_right hf _ _ hr, zipWith_proj_right hf _ _ hg, zipWith_proj_right hf _ _ hb]

/-- C2: on well-formed arrays of equal shape the Compositor computes the
pointwise `original*(1-c) + styled*c` with `c = clamp(t,0,1)` for every
intensity `t`, including values outside [0,1] (blending at any `t` equals
blending at `clamp(t,0,1)`); at intensity 0 it returns the original image
exactly and at intensity 1 the styled image exactly; and at pipeline level
the full transfer returns the content at intensity 0 and the pure method
output at intensity 1, for every method. -/
theorem blend_contract :
    (∀ (a b : NpArr) (t : ℚ), a.shape = b.shape →
      a.data.length = a.shape.prod → b.data.length = b.shape.prod →
      blend_images a b t = Except.ok ⟨a.shape,
        List.zipWith (fun x y => x * (1 - clampQ t 0 1) + y * clampQ t 0 1) a.data b.data⟩) ∧
    (∀ (a b : NpArr) (t : ℚ), blend_images a b t = blend_images a b (clampQ t 0 1)) ∧
    (∀ (a b : NpArr), a.shape = b.shape →
      a.data.length = a.shape.prod → b.data.length = b.shape.prod →
      blend_images a b 0 = Except.ok a ∧ blend_images a b 1 = Except.ok b) ∧
    (∀ (ops : NumOps) (method : String) (content style : Img), content.wf →
      transferResult ops method content style 0 = content ∧
      transferResult ops method content style 1
        = apply_style_transfer ops method content style) := by
  refine ⟨blend_images_same_shape, ?_, ?_, ?_⟩
  · intro a b t
    have hcl : clampQ (clampQ t 0 1) 0 1 = clampQ t 0 1 :=
      clampQ_of_mem (clamp01_mem t).1 (clamp01_mem t).2
    rw [blend_images, blend_images, hcl]
  · intro a b hsh ha hb
    have hlen : b.data.length = a.data.length := by
      rw [ha, hb, hsh]
    constructor
    · rw [blend_images_same_shape a b 0 hsh ha hb]
      have hf : ∀ x y : ℚ, x * (1 - clampQ 0 0 1) + y * clampQ 0 0 1 = x := by
        intro x y
        rw [clampQ_zero]
        ring
      rw [zipWith_proj_left hf _ _ (le_of_eq hlen.symm)]
    · rw [blend_images_same_shape a b 1 hsh ha hb]
      have hf : ∀ x y : ℚ, x * (1 - clampQ 1 0 1) + y * clampQ 1 0 1 = y := by
        intro x y
        rw [clampQ_one]
        ring
      rw [zipWith_proj_right hf _ _ (le_of_eq hlen)]
      rw [show (⟨a.shape, b.data⟩ : NpArr) = b from by rw [hsh]]
  · intro ops method content style hwf
    obtain ⟨h1, h2, h3⟩ := styled_lengths ops method style hwf
    exact ⟨blendImg_at_zero (le_of_eq h1.symm) (le_of_eq h2.symm) (le_of_eq h3.symm),
      blendImg_at_one (le_of_eq h1) (le_of_eq h2) (le_of_eq h3)⟩

/-- Witness for C2 at a concrete pair of same-shape arrays and the
out-of-range intensity 2. -/
theorem blend_contract_witness :
    blend_images ⟨[2, 3], [0, 1, 0, 1, 0, 1]⟩ ⟨[2, 3], [1, 1, 1, 0, 0, 0]⟩ 2
      = Except.ok ⟨[2, 3], List.zipWith
          (fun x y => x * (1 - clampQ 2 0 1) + y * clampQ 2 0 1)
          [0, 1, 0, 1, 0, 1] [1, 1, 1, 0, 0, 0]⟩ :=
  blend_contract.1 ⟨[2, 3], [0, 1, 0, 1, 0, 1]⟩ ⟨[2, 3], [1, 1, 1, 0, 0, 0]⟩ 2
    (by decide) (by decide) (by decide)

/-- C3 counterexample: the Compositor performs no shape check.  A 2×1×3
original and a 1×1×3 styled image have different shapes, yet `blend_images`
succeeds (numpy broadcasts the styled image across the first axis) and
produces an output image instead of failing. -/
theorem blend_shape_mismatch_counterexample :
    ([2, 1, 3] : List Nat) ≠ [1, 1, 3] ∧
    ([0, 0, 0, 1, 1, 1] : List ℚ).length = List.prod [2, 1, 3] ∧
    ([1, 0, 1] : List ℚ).length = List.prod [1, 1, 3] ∧
    (blend_images ⟨[2, 1, 3], [0, 0, 0, 1, 1, 1]⟩ ⟨[1, 1, 3], [1, 0, 1]⟩ 1).isOk = true := by
  refine ⟨by decide, by decide, by decide, ?_⟩
  have hbc : broadcastShapes [2, 1, 3] [1, 1, 3] = some [2, 1, 3] := by decide
  rw [blend_images, npBinop]
  simp only [npScale, hbc]
  rfl

/-- C3 amended: `blend_images` checks no shapes itself; it fails (with
numpy's broadcast error, not a dedicated ShapeMismatch) exactly when the two
shapes are not broadcastable under numpy's right-aligned rules, and in that
case produces no output; differing but broadcastable shapes are silently
broadcast and produce an output image. -/
theorem blend_error_iff_not_broadcastable (a b : NpArr) (t : ℚ) :
    ((∃ e, blend_images a b t = Except.error e) ↔
      broadcastShapes a.shape b.shape = none) ∧
    ((∃ out, blend_images a b t = Except.ok out) ↔
      (broadcastShapes a.shape b.shape).isSome = true) := by
  rw [blend_images, npBinop]
  simp only [npScale]
  cases h : broadcastShapes a.shape b.shape with
  | none => simp
  | some sh => simp

/-! ## ensure_rgb characterization (claim C9) -/

lemma flatten_triple_getD (l : List ℚ) (p k : ℕ) (hk : k < 3) :
    ((l.map fun v => [v, v, v]).flatten).getD (3 * p + k) 0 = l.getD p 0 := by
  induction l generalizing p with
  | nil => simp
  | cons x l ih =>
    simp only [List.map_cons, List.flatten_cons, List.cons_append, List.nil_append]
    cases p with
    | zero =>
      interval_cases k
      · simp
      · simp
      · simp
    | succ p =>
      have hidx : 3 * (p + 1) + k = (3 * p + k) + 1 + 1 + 1 := by ring
      rw [hidx]
      simp only [List.getD_cons_succ]
      exact ih p

lemma take3of4_getD :
    ∀ (n : ℕ) (l : List ℚ), l.length = 4 * n → ∀ (p k : ℕ), p < n → k < 3 →
      (take3of4 l).getD (3 * p + k) 0 = l.getD (4 * p + k) 0 := by
  intro n
  induction n with
  | zero =>
    intro l hl p k hp hk
    exact absurd hp (Nat.not_lt_zero p)
  | succ n ih =>
    intro l hl p k hp hk
    rcases l with - | ⟨a, - | ⟨b, - | ⟨c, - | ⟨d, rest⟩⟩⟩⟩
    · exfalso
      simp only [List.length_nil] at hl
      omega
    · exfalso
      simp only [List.length_cons, List.length_nil] at hl
      omega
    · exfalso
      simp only [List.length_cons, List.length_nil] at hl
      omega
    · exfalso
      simp only [List.length_cons, List.length_nil] at hl
      omega
    · have hrest : rest.length = 4 * n := by
        simp only [List.length_cons] at hl
        omega
      show (a :: b :: c :: take3of4 rest).getD (3 * p + k) 0
        = (a :: b :: c :: d :: rest).getD (4 * p + k) 0
      cases p with
      | zero =>
        interval_cases k
        · simp
        · simp
        · simp
      | succ p =>
        have h1 : 3 * (p + 1) + k = (3 * p + k) + 1 + 1 + 1 := by ring
        have h2 : 4 * (p + 1) + k = (4 * p + k) + 1 + 1 + 1 + 1 := by ring
        rw [h1, h2]
        simp only [List.getD_cons_succ]
        exact ih rest hrest p k (by omega) hk

lemma offset_hw (h w i j : ℕ) : offset [h, w] [i, j] = i * w + j := by
  simp [offset]

lemma offset_hw1 (h w i j : ℕ) : offset [h, w, 1] [i, j, 0] = i * w + j := by
  simp [offset]

lemma offset_hw3 (h w i j k : ℕ) : offset [h, w, 3] [i, j, k] = 3 * (i * w + j) + k := by
  simp [offset]
  ring

lemma offset_hw4 (h w i j k : ℕ) : offset [h, w, 4] [i, j, k] = 4 * (i * w + j) + k := by
  simp [offset]
  ring

lemma pix_lt (h w i j : ℕ) (hi : i < h) (hj : j < w) : i * w + j < h * w := by
  have h1 : i * w + j < (i + 1) * w := by
    have : (i + 1) * w = i * w + w := by ring
    omega
  have h2 : (i + 1) * w ≤ h * w := Nat.mul_le_mul_right w (Nat.succ_le_of_lt hi)
  omega

/-- C9: the Channel Normalizer's full contract.  Rank 2 replicates the single
channel into three; rank 3 with 1 channel replicates it; 3 channels pass
through unchanged; 4 channels keep the first three (alpha dropped); any other
channel count or rank fails with an error naming the actual channel count or
rank, producing no image. -/
theorem ensure_rgb_contract :
    (∀ (img : NpArr) (h w : ℕ), img.shape = [h, w] →
      ∃ out, ensure_rgb img = Except.ok out ∧ out.shape = [h, w, 3] ∧
        ∀ i j k, i < h → j < w → k < 3 → getAt out [i, j, k] = getAt img [i, j]) ∧
    (∀ (img : NpArr) (h w : ℕ), img.shape = [h, w, 1] →
      ∃ out, ensure_rgb img = Except.ok out ∧ out.shape = [h, w, 3] ∧
        ∀ i j k, i < h → j < w → k < 3 → getAt out [i, j, k] = getAt img [i, j, 0]) ∧
    (∀ (img : NpArr) (h w : ℕ), img.shape = [h, w, 3] → ensure_rgb img = Except.ok img) ∧
    (∀ (img : NpArr) (h w : ℕ), img.shape = [h, w, 4] →
      img.data.length = List.prod [h, w, 4] →
      ∃ out, ensure_rgb img = Except.ok out ∧ out.shape = [h, w, 3] ∧
        ∀ i j k, i < h → j < w → k < 3 → getAt out [i, j, k] = getAt img [i, j, k]) ∧
    (∀ (img : NpArr) (h w c : ℕ), img.shape = [h, w, c] → c ≠ 1 → c ≠ 3 → c ≠ 4 →
      ensure_rgb img = Except.error s!"Unsupported number of channels: {c}") ∧
    (∀ (img : NpArr), img.shape.length ≠ 2 → img.shape.length ≠ 3 →
      ensure_rgb img = Except.error s!"Unsupported image dimensions: {img.shape.length}") := by
  refine ⟨?_, ?_, ?_, ?_, ?_, ?_⟩
  · intro img h w hsh
    obtain ⟨sh, data⟩ := img
    simp only at hsh
    subst hsh
    refine ⟨⟨[h, w, 3], (data.map fun v => [v, v, v]).flatten⟩, rfl, rfl, ?_⟩
    intro i j k hi hj hk
    show ((data.map fun v => [v, v, v]).flatten).getD (offset [h, w, 3] [i, j, k]) 0
      = data.getD (offset [h, w] [i, j]) 0
    rw [offset_hw3, offset_hw]
    exact flatten_triple_getD data (i * w + j) k hk
  · intro img h w hsh
    obtain ⟨sh, data⟩ := img
    simp only at hsh
    subst hsh
    refine ⟨⟨[h, w, 3], (data.map fun v => [v, v, v]).flatten⟩, rfl, rfl, ?_⟩
    intro i j k hi hj hk
    show ((data.map fun v => [v, v, v]).flatten).getD (offset [h, w, 3] [i, j, k]) 0
      = data.getD (offset [h, w, 1] [i, j, 0]) 0
    rw [offset_hw3, offset_hw1]
    exact flatten_triple_getD data (i * w + j) k hk
  · intro img h w hsh
    obtain ⟨sh, data⟩ := img
    simp only at hsh
    subst hsh
    rfl
  · intro img h w hsh hlen
    obtain ⟨sh, data⟩ := img
    simp only at hsh hlen
    subst hsh
    refine ⟨⟨[h, w, 3], take3of4 data⟩, rfl, rfl, ?_⟩
    intro i j k hi hj hk
    show (take3of4 data).getD (offset [h, w, 3] [i, j, k]) 0
      = data.getD (offset [h, w, 4] [i, j, k]) 0
    rw [offset_hw3, offset_hw4]
    have hlen4 : data.length = 4 * (h * w) := by
      simp only [List.prod_cons, List.prod_nil] at hlen
      rw [hlen]
      ring
    exact take3of4_getD (h * w) data hlen4 (i * w + j) k (pix_lt h w i j hi hj) hk
  · intro img h w c hsh h1 h3 h4
    obtain ⟨sh, data⟩ := img
    simp only at hsh
    subst hsh
    simp [ensure_rgb, h1, h3, h4]
  · intro img h2 h3
    obtain ⟨sh, data⟩ := img
    simp only at h2 h3
    rcases sh with - | ⟨a, - | ⟨b, - | ⟨c, - | ⟨d, rest⟩⟩⟩⟩
    · rfl
    · rfl
    · exact absurd rfl h2
    · exact absurd rfl h3
    · rfl

/-- Witness for C9 at a concrete ill-formed image: a 1×1 image with 2
channels is rejected with the error naming the channel count 2. -/
theorem ensure_rgb_contract_witness :
    ensure_rgb ⟨[1, 1, 2], [0, 0]⟩ = Except.error "Unsupported number of channels: 2" :=
  ensure_rgb_contract.2.2.2.2.1 ⟨[1, 1, 2], [0, 0]⟩ 1 1 2 rfl
    (by decide) (by decide) (by decide)
